import Mathlib

/-!
# Verification of the SAR visualization pipeline (sarpro)

Shallow embedding of the numeric core of the repository:

* `src/core/processing/autoscale.rs`     — statistics, autoscale strategies, quantization
* `src/core/processing/pipeline.rs`      — radiometric (dB) conversion
* `src/core/processing/ops.rs`           — polarization algebra (ratio)
* `src/core/processing/synthetic_rgb.rs` — synthetic RGB compositor
* `src/core/processing/resize.rs`        — geometric resampling dispatch

Modelling conventions:

* `f64`/`f32` values are modelled as exact rationals (`ℚ`); the claims under
  study are about the real-number formulas the code computes.
* Transcendental functions that have no rational realisation (`powf`,
  `log10`, `sqrt`) are passed as explicit function parameters; theorems are
  stated for all such functions (with monotonicity hypotheses where the
  source relies on them), and concrete witnesses instantiate them with
  functions that agree with the IEEE functions on the inputs actually
  exercised (e.g. `powf x 1 = x`, `log10 1 = 0`, which hold exactly in IEEE
  arithmetic).
* Rust `as u16` / `as u8` casts of non-negative in-range floats truncate
  toward zero; they are modelled by `Int.floor`/`Int.toNat`.
* Rust `f64::round` rounds half away from zero; all rounded quantities here
  are clamped to a non-negative window before or after rounding, where this
  agrees with Mathlib's `round` (half up), which is used.
* 2-D `Array2` grids are row-major; they are modelled as flat row-major
  lists, matching the source's own `i * ncols + j` mask indexing.
-/

namespace Sarpro

/-- Rust `x.clamp(lo, hi)`: `min (max x lo) hi`. -/
def clampQ (x lo hi : ℚ) : ℚ := min (max x lo) hi

/-- Machine epsilon `f64::EPSILON` = 2⁻⁵², used by the degenerate-distribution test. -/
def f64Eps : ℚ := 1 / 2 ^ 52

/-- The noise-floor magnitude `1e-10` used throughout the source. -/
def tinyMag : ℚ := 1 / 10 ^ 10

/-- Statistics snapshot from `compute_histogram_stats`
(`autoscale.rs`, `struct HistogramStats`).  The source's `std_db` field is
`sqrt` of `var_db` when `valid_count > 1` and `0` otherwise; since `sqrt`
has no rational realisation the variance `m2 / count` is carried instead,
and `stdOf` below reconstructs `std_db` from it exactly as the source does
(no claim under study depends on the value of `std_db`). -/
structure HistogramStats where
  valid_count : ℕ
  min_db : ℚ
  max_db : ℚ
  mean_db : ℚ
  var_db : ℚ
  median_db : ℚ
  p01 : ℚ
  p02 : ℚ
  p05 : ℚ
  p10 : ℚ
  p25 : ℚ
  p75 : ℚ
  p90 : ℚ
  p95 : ℚ
  p98 : ℚ
  p99 : ℚ
  deriving DecidableEq

/-- Standard deviation `std_db` as computed in the source:
`if count > 1 { (m2 / count).sqrt() } else { 0.0 }`. -/
def stdOf (sqrtQ : ℚ → ℚ) (s : HistogramStats) : ℚ :=
  if 1 < s.valid_count then sqrtQ s.var_db else 0

/-- The valid samples of a dB grid, in iteration order: the source iterates
`db.indexed_iter()` (row-major) and keeps pixels with
`valid_mask[i * ncols + j]`. -/
def validValues (db : List ℚ) (mask : List Bool) : List ℚ :=
  (db.zip mask).filterMap fun p => if p.2 then some p.1 else none

/-- Minimum of a non-empty list (the source folds with `+∞` as the initial
value; over a non-empty list this equals folding from the head). -/
def listMin (l : List ℚ) : ℚ :=
  match l with
  | [] => 0
  | v :: vs => vs.foldl min v

/-- Maximum of a non-empty list (source folds with `−∞` initial value). -/
def listMax (l : List ℚ) : ℚ :=
  match l with
  | [] => 0
  | v :: vs => vs.foldl max v

/-- One step of Welford's online mean/variance update
(`autoscale.rs` lines 49-53).  State is `(count, mean, m2)`. -/
def welfordStep (acc : ℕ × ℚ × ℚ) (v : ℚ) : ℕ × ℚ × ℚ :=
  let c := acc.1 + 1
  let delta := v - acc.2.1
  let mean := acc.2.1 + delta / (c : ℚ)
  let delta2 := v - mean
  (c, mean, acc.2.2 + delta * delta2)

/-- Welford pass over the valid samples. -/
def welford (vals : List ℚ) : ℕ × ℚ × ℚ :=
  vals.foldl welfordStep (0, 0, 0)

/-- Number of histogram bins (`NUM_BINS`). -/
def numBins : ℕ := 4096

/-- Bin index of a valid sample
(`autoscale.rs` lines 112-115):
`t = ((v - min) * inv_span).clamp(0, 1)`; `idx = (t * 4096) as usize`
(truncation of a non-negative value = floor); clamp to `4095`. -/
def binIdxOf (min_db span v : ℚ) : ℕ :=
  let t := clampQ ((v - min_db) * (1 / span)) 0 1
  let idx := Nat.floor (t * (numBins : ℚ))
  if numBins ≤ idx then numBins - 1 else idx

/-- Build the 4096-bin histogram over the valid samples
(second pass of `compute_histogram_stats`). -/
def buildHist (vals : List ℚ) (min_db span : ℚ) : List ℕ :=
  vals.foldl
    (fun h v =>
      let idx := binIdxOf min_db span v
      h.set idx (h.getD idx 0 + 1))
    (List.replicate numBins 0)

/-- The CDF-inversion scan of `estimate_percentile`
(`autoscale.rs` lines 126-139): walk bins accumulating counts; in the bin
containing `target`, linearly interpolate with `frac = within / h`;
`within = target.saturating_sub(cumsum)` is `ℕ` subtraction.  The fallback
when the scan falls through returns `max_db`. -/
def percScan (min_db w max_db : ℚ) (target : ℕ) :
    List ℕ → ℕ → ℕ → ℚ
  | [], _, _ => max_db
  | h :: rest, b, cumsum =>
    if target < cumsum + h then
      min_db + (b : ℚ) * w +
        (if 0 < h then ((target - cumsum : ℕ) : ℚ) / (h : ℚ) else 0) * w
    else
      percScan min_db w max_db target rest (b + 1) (cumsum + h)

/-- Embedding of `estimate_percentile` (`autoscale.rs` lines 120-140):
`target = floor(p·n)` clamped to `n − 1`, then the CDF scan. -/
def estimatePercentile (hist : List ℕ) (n : ℕ) (min_db max_db span : ℚ)
    (p : ℚ) : ℚ :=
  let t0 := Nat.floor (p * (n : ℚ))
  let target := if n ≤ t0 then n - 1 else t0
  percScan min_db (span / (numBins : ℚ)) max_db target hist 0 0

/-- The all-zero snapshot returned when `count == 0`. -/
def zeroStats : HistogramStats :=
  ⟨0, 0, 0, 0, 0, 0, 0, 0, 0, 0, 0, 0, 0, 0, 0, 0⟩

/-- The degenerate snapshot returned when `|max − min| < f64::EPSILON`
(`autoscale.rs` lines 81-100): every percentile up to the median equals
`min`, percentiles ≥ 75th equal `max`; no histogram is built. -/
def degenerateStats (n : ℕ) (min_db max_db mean var : ℚ) : HistogramStats :=
  ⟨n, min_db, max_db, mean, var,
   min_db, min_db, min_db, min_db, min_db, min_db,
   max_db, max_db, max_db, max_db, max_db⟩

/-- Embedding of `compute_histogram_stats` (`autoscale.rs` lines 35-160).
Pass 1 finds `min`/`max` and the Welford mean/m2 over the valid samples;
the degenerate all-equal case short-circuits before the histogram; the
general case builds the 4096-bin histogram and inverts the CDF. -/
def compute_histogram_stats (db : List ℚ) (mask : List Bool) :
    HistogramStats :=
  let vals := validValues db mask
  let n := vals.length
  if n = 0 then zeroStats
  else
    let min_db := listMin vals
    let max_db := listMax vals
    let mean := (welford vals).2.1
    let m2 := (welford vals).2.2
    let var := m2 / (n : ℚ)
    if |max_db - min_db| < f64Eps then
      degenerateStats n min_db max_db mean var
    else
      let span := max_db - min_db
      let hist := buildHist vals min_db span
      let est := fun p => estimatePercentile hist n min_db max_db span p
      ⟨n, min_db, max_db, mean, var,
       est (1/2), est (1/100), est (2/100), est (5/100), est (1/10),
       est (1/4), est (3/4), est (9/10), est (95/100), est (98/100),
       est (99/100)⟩

/-- Output bit depth (`types.rs`, `enum BitDepth`). -/
inductive BitDepth where
  | U8
  | U16
  deriving DecidableEq

/-- Autoscale strategy selector (`types.rs` / `autoscale.rs`).  `Clahe` is
matched by `autoscale.rs` and `pipeline.rs` and is included here as a
first-class variant. -/
inductive AutoscaleStrategy where
  | Standard
  | Robust
  | Adaptive
  | Equalized
  | Clahe
  | Tamed
  | Default
  deriving DecidableEq

/-- The `max_val` per bit depth: 255 for U8, 65535 for U16. -/
def maxValN : BitDepth → ℕ
  | .U8 => 255
  | .U16 => 65535

/-- The `max_val` as the rational the source multiplies with. -/
def maxValOf (bd : BitDepth) : ℚ := (maxValN bd : ℚ)

/-- Pre-clamp window selection of the Standard strategy
(`autoscale_db_image`, `autoscale.rs` lines 404-424).
Returns `(low_clip, high_clip, gamma)`. -/
def standardWindow (s : HistogramStats) : ℚ × ℚ × ℚ :=
  let dynamicRange := s.max_db - s.min_db
  let iqr := s.p75 - s.p25
  if dynamicRange < 15 then
    let range := max 20 (dynamicRange * 0.8)
    (s.median_db - range / 2, s.median_db + range / 2, 1.1)
  else if iqr < 5 then
    let outlierFactor : ℚ := 2.5
    (s.p25 - outlierFactor * iqr, s.p75 + outlierFactor * iqr, 1)
  else if 40 < dynamicRange then
    let clipLow := max s.p02 (s.min_db + 0.02 * dynamicRange)
    let clipHigh := min s.p98 (s.max_db - 0.02 * dynamicRange)
    (clipLow, clipHigh, 0.9)
  else
    (s.p02, s.p98, 1)

/-- Re-clamping of the chosen bounds and flooring of the range
(`autoscale.rs` lines 427-429):
`low = max low min_db`, `high = min high max_db`,
`range = max (high − low) 1`.  Returns `(low, high, range)`. -/
def clampWindow (s : HistogramStats) (lo hi : ℚ) : ℚ × ℚ × ℚ :=
  let lowClip := max lo s.min_db
  let highClip := min hi s.max_db
  (lowClip, highClip, max (highClip - lowClip) 1)

/-- Per-pixel quantization of a valid pixel (non-CLAHE path,
`autoscale.rs` lines 440-442):
`clipped = v.max(low).min(high)`;
`normalized = ((clipped − low) / range).powf(gamma)`;
`(normalized * max_val).clamp(0, max_val) as u16` — the cast of the
clamped non-negative value truncates, i.e. takes the floor. -/
def quantizePixel (powf : ℚ → ℚ → ℚ) (lowClip highClip range gamma maxVal v : ℚ) : ℕ :=
  let clipped := min (max v lowClip) highClip
  let normalized := powf ((clipped - lowClip) / range) gamma
  (⌊clampQ (normalized * maxVal) 0 maxVal⌋).toNat

/-- Embedding of `autoscale_db_image` (`autoscale.rs` lines 368-448): Standard-strategy
autoscale of a dB grid.  `powf` is the (transcendental) IEEE power
function, passed as a parameter. -/
def autoscale_db_image (powf : ℚ → ℚ → ℚ) (db : List ℚ) (mask : List Bool)
    (bd : BitDepth) : List ℕ :=
  let stats := compute_histogram_stats db mask
  if stats.valid_count = 0 then List.replicate db.length 0
  else
    let maxVal := maxValOf bd
    let w := standardWindow stats
    let c := clampWindow stats w.1 w.2.1
    (db.zip mask).map fun p =>
      if p.2 then quantizePixel powf c.1 c.2.1 c.2.2 w.2.2 maxVal p.1
      else 0

/-- Embedding of `approx_eq` (`autoscale.rs` lines 27-29): `|a − b| < 1e-9`. -/
def approxEq (a b : ℚ) : Bool := |a - b| < 1 / 10 ^ 9

/-- Strategy-parameter selection of `autoscale_db_image_advanced`
(`autoscale.rs` lines 491-562).  Returns
`(low_clip, high_clip, gamma, use_local_enhancement)`.  `sqrtQ` stands for
the IEEE square root used for `std_db`. -/
def advancedParams (sqrtQ : ℚ → ℚ) (s : HistogramStats) :
    AutoscaleStrategy → ℚ × ℚ × ℚ × Bool
  | .Robust =>
    let iqr := s.p75 - s.p25
    let outlierThreshold := 2.5 * iqr
    let low := max (max (s.p25 - outlierThreshold) s.p01) s.min_db
    let high := min (min (s.p75 + outlierThreshold) s.p99) s.max_db
    (low, high, 1, false)
  | .Adaptive =>
    let stdDb := stdOf sqrtQ s
    let skewFactor := (s.mean_db - s.median_db) / max |stdDb| 1
    let tailHeaviness := (s.p99 - s.p95) / max (s.p95 - s.p75) 1
    let sel : ℚ × ℚ × ℚ :=
      if 0.5 < |skewFactor| then
        if 0 < skewFactor then (0.02, 0.98, 0.9) else (0.05, 0.95, 1.1)
      else if 2 < tailHeaviness then (0.10, 0.90, 0.8)
      else (0.05, 0.95, 1)
    let lowPct := sel.1
    let highPct := sel.2.1
    let low :=
      if approxEq lowPct 0.10 then s.p10
      else if approxEq lowPct 0.02 then s.p02
      else if approxEq lowPct 0.05 then s.p05
      else if approxEq lowPct 0.25 then s.p25
      else if approxEq lowPct 0.75 then s.p75
      else if approxEq lowPct 0.95 then s.p95
      else if approxEq lowPct 0.99 then s.p99
      else s.p05
    let high :=
      if approxEq highPct 0.90 then s.p90
      else if approxEq highPct 0.98 then s.p98
      else if approxEq highPct 0.95 then s.p95
      else if approxEq highPct 0.75 then s.p75
      else if approxEq highPct 0.99 then s.p99
      else s.p95
    (low, high, sel.2.2, false)
  | .Equalized => (s.p01, s.p99, 1, false)
  | .Clahe => (s.p01, s.p99, 1, false)
  | .Tamed => (s.p25, s.p99, 1, false)
  | .Standard => (s.p05, s.p95, 1, false)
  | .Default => (s.p05, s.p95, 1, false)

/-- Embedding of `autoscale_db_image_advanced` (`autoscale.rs` lines 452-659).
`claheFn` abstracts the external-to-this-claim-set CLAHE sub-algorithm
`clahe_equalize_normalized` at its fixed call site parameters
(8×8 tiles, clip limit 2.0, 256 bins); no claim under study concerns its
internals.  `use_local_enhancement` is `false` in every strategy arm
(`advancedParams_useLocal_false` below), so the local-enhancement branch of
the source (lines 613-643) is unreachable and the non-CLAHE body is the
plain quantization map (lines 645-656). -/
def autoscale_db_image_advanced (sqrtQ : ℚ → ℚ) (powf : ℚ → ℚ → ℚ)
    (claheFn : List ℚ → List Bool → List ℚ)
    (db : List ℚ) (mask : List Bool) (bd : BitDepth)
    (strategy : AutoscaleStrategy) : List ℕ :=
  let maxVal := maxValOf bd
  let stats := compute_histogram_stats db mask
  if stats.valid_count = 0 then List.replicate db.length 0
  else
    let ps := advancedParams sqrtQ stats strategy
    let lowClip := ps.1
    let highClip := ps.2.1
    let gamma := ps.2.2.1
    let range := max (highClip - lowClip) 1
    match strategy with
    | .Clahe =>
      let norm := (db.zip mask).map fun p =>
        if p.2 then (min (max p.1 lowClip) highClip - lowClip) / range
        else 0
      let equalized := claheFn norm mask
      (equalized.zip mask).map fun p =>
        if p.2 then (⌊clampQ p.1 0 1 * maxVal⌋).toNat else 0
    | _ =>
      (db.zip mask).map fun p =>
        if p.2 then quantizePixel powf lowClip highClip range gamma maxVal p.1
        else 0

/-- Minimum of a non-empty `ℕ` list (`data.iter().min().unwrap()`). -/
def listMinNat (l : List ℕ) : ℕ :=
  match l with
  | [] => 0
  | v :: vs => vs.foldl min v

/-- Maximum of a non-empty `ℕ` list (`data.iter().max().unwrap()`). -/
def listMaxNat (l : List ℕ) : ℕ :=
  match l with
  | [] => 0
  | v :: vs => vs.foldl max v

/-- Embedding of `scale_u16_to_u8` (`autoscale.rs` lines 348-364): min–max restretch of
a u16 buffer to u8.  `scale = 255 / (max − min)` when `max > min`, else
`1`; each sample maps to `((x − min) * scale).round().clamp(0, 255)`; the
final `as u8` of the clamped integer value is the identity.  The source
computes in `f32`; it is modelled exactly over `ℚ`.  Rust rounds half away
from zero, which agrees with `round` (half up) on the non-negative values
`(x − min) * scale`. -/
def scale_u16_to_u8 (data : List ℕ) : List ℕ :=
  if data.isEmpty then []
  else
    let mn := listMinNat data
    let mx := listMaxNat data
    let scale : ℚ := if mn < mx then 255 / ((mx : ℚ) - (mn : ℚ)) else 1
    data.map fun (x : ℕ) =>
      (min (max (round (((x : ℚ) - (mn : ℚ)) * scale)) 0) 255).toNat

/-- Embedding of `autoscale_db_image_to_bitdepth` (`autoscale.rs` lines 662-680):
U8 output additionally passes through `scale_u16_to_u8`. -/
def autoscale_db_image_to_bitdepth (powf : ℚ → ℚ → ℚ) (db : List ℚ)
    (mask : List Bool) (bd : BitDepth) : List ℕ × Option (List ℕ) :=
  match bd with
  | .U8 => (scale_u16_to_u8 (autoscale_db_image powf db mask .U8), none)
  | .U16 => ([], some (autoscale_db_image powf db mask .U16))

/-- Embedding of `autoscale_db_image_to_bitdepth_advanced` (`autoscale.rs` lines
683-704). -/
def autoscale_db_image_to_bitdepth_advanced (sqrtQ : ℚ → ℚ)
    (powf : ℚ → ℚ → ℚ) (claheFn : List ℚ → List Bool → List ℚ)
    (db : List ℚ) (mask : List Bool) (bd : BitDepth)
    (strategy : AutoscaleStrategy) : List ℕ × Option (List ℕ) :=
  match bd with
  | .U8 =>
    (scale_u16_to_u8
      (autoscale_db_image_advanced sqrtQ powf claheFn db mask .U8 strategy),
     none)
  | .U16 =>
    ([], some (autoscale_db_image_advanced sqrtQ powf claheFn db mask .U16
      strategy))

/-- Embedding of `process_scalar_data_inplace` (`pipeline.rs` lines 8-40): for every
sample, `magnitude = max(v, 1e-10)`, `db = 10 · log10 magnitude`, validity
`db > −50`.  `log10f` is the IEEE base-10 logarithm, passed as a
parameter.  Returns the dB grid and the validity mask. -/
def process_scalar_data_inplace (log10f : ℚ → ℚ) (grid : List ℚ) :
    List ℚ × List Bool :=
  let pairs := grid.map fun v =>
    let magnitude := max v tinyMag
    let dbVal := 10 * log10f magnitude
    (dbVal, decide ((-50 : ℚ) < dbVal))
  (pairs.map Prod.fst, pairs.map Prod.snd)

/-- The per-sample dB value of the radiometric conversion. -/
def dbOfSample (log10f : ℚ → ℚ) (v : ℚ) : ℚ :=
  10 * log10f (max v tinyMag)

/-- Complex numbers `Complex<f64>` modelled exactly over `ℚ`. -/
structure CQ where
  re : ℚ
  im : ℚ
  deriving DecidableEq

/-- Squared modulus `re² + im²`.  The source compares
`b.norm() > 1e-10` with `norm = sqrt normSq`; for the non-negative
`normSq` this is exactly equivalent to `normSq > (1e-10)²`, which is the
sqrt-free form used here. -/
def CQ.normSq (z : CQ) : ℚ := z.re ^ 2 + z.im ^ 2

/-- Complex division `a / b` (exact; `num_complex` computes the same
quotient): `(a * conj b) / normSq b`. -/
def CQ.div (a b : CQ) : CQ :=
  let n := b.normSq
  ⟨(a.re * b.re + a.im * b.im) / n, (a.im * b.re - a.re * b.im) / n⟩

/-- The complex zero. -/
def CQ.zero : CQ := ⟨0, 0⟩

/-- Embedding of `ratio_arrays` (`ops.rs` lines 15-25): element-wise `a / b` where
`|b| > 1e-10`, else `0`.  The two grids have the same shape; they are
modelled as equal-length flat lists combined positionally. -/
def ratio_arrays (a b : List CQ) : List CQ :=
  a.zipWith
    (fun x y => if tinyMag ^ 2 < y.normSq then CQ.div x y else CQ.zero) b

/-- Red-channel LUT entry of the default synthetic-RGB compositor
(`synthetic_rgb.rs` lines 21-29):
`((v/255)^0.7 * 255).round().clamp(0, 255) as u8`.  `powf` is the IEEE
`f32` power function (a parameter).  Rounding before clamping at the
integer bounds 0 and 255 equals clamping before rounding
(`round_clamp_comm` below), and Rust's half-away rounding agrees with
`round` after the clamp to a non-negative window. -/
def lutR (powf : ℚ → ℚ → ℚ) (v : ℕ) : ℕ :=
  (min (max (round (powf ((v : ℚ) / 255) 0.7 * 255)) 0) 255).toNat

/-- Green-channel LUT entry, gamma 0.9. -/
def lutG (powf : ℚ → ℚ → ℚ) (v : ℕ) : ℕ :=
  (min (max (round (powf ((v : ℚ) / 255) 0.9 * 255)) 0) 255).toNat

/-- Blue-channel LUT entry (`synthetic_rgb.rs` lines 34-51), indexed in
the source by `(b1 << 8) | b2` and modelled as the function of
`(b1, b2)` it tabulates: `0` when `b2 == 0`, else
`ratio = lut_r[b1] / lut_g[b2]`;
`(ratio^0.1 * 255 * 0.24).clamp(0, 255).round() as u8`.
(For the IEEE power function `lut_g[b2] ≥ 1` whenever `b2 ≥ 1`, so the
division is by a positive value on the real code path.) -/
def lutB (powf : ℚ → ℚ → ℚ) (b1 b2 : ℕ) : ℕ :=
  if b2 = 0 then 0
  else
    let r : ℚ := (lutR powf b1 : ℚ)
    let g : ℚ := (lutG powf b2 : ℚ)
    let ratioRG := r / g
    (round (clampQ (powf ratioRG 0.1 * 255 * 0.24) 0 255)).toNat

/-- Embedding of `create_synthetic_rgb` (`synthetic_rgb.rs` lines 10-67): interleave
the three channels per pixel.  The 256- and 65536-entry lookup tables of
the source are pure memoizations of `lutR`, `lutG`, `lutB`. -/
def create_synthetic_rgb (powf : ℚ → ℚ → ℚ) (band1 band2 : List ℕ) :
    List ℕ :=
  (band1.zip band2).flatMap fun p =>
    [lutR powf p.1, lutG powf p.2, lutB powf p.1 p.2]

/-- u16 buffer → little-endian byte buffer
(`resize.rs` lines 67-72): each sample contributes `[lo, hi]`. -/
def toLeBytes (data : List ℕ) : List ℕ :=
  data.flatMap fun v => [v % 256, v / 256 % 256]

/-- Little-endian byte buffer → u16 buffer (`resize.rs` lines 84-87,
`chunks_exact(2)`; a trailing odd byte is dropped). -/
def fromLeBytes : List ℕ → List ℕ
  | b0 :: b1 :: rest => (b0 + 256 * b1) :: fromLeBytes rest
  | _ => []

/-- Embedding of `resize_u8_image` (`resize.rs` lines 32-53): hands the u8 buffer to
the external resampler (`fast_image_resize`, Lanczos3), abstracted as the
parameter `resample8`. -/
def resize_u8_image (resample8 : List ℕ → List ℕ) (data : List ℕ) :
    List ℕ :=
  resample8 data

/-- Embedding of `resize_u16_image` (`resize.rs` lines 55-89): converts the u16
samples to little-endian bytes, hands them to the external resampler at
16-bit pixel type (abstracted as `resample16`), and decodes the resulting
bytes back to u16 samples.  No 8-bit down-conversion occurs. -/
def resize_u16_image (resample16 : List ℕ → List ℕ) (data : List ℕ) :
    List ℕ :=
  fromLeBytes (resample16 (toLeBytes data))

/-- The bit-depth dispatch of `resize_image_data_with_meta` when an actual
resample happens (`resize.rs` lines 154-167): U8 data is resampled as u8;
U16 data is resampled natively as u16 (`none` models the
"U16 data required" error). -/
def resizeBitDepthBranch (resample8 resample16 : List ℕ → List ℕ)
    (u8data : List ℕ) (u16data : Option (List ℕ)) (bd : BitDepth) :
    Option (List ℕ × Option (List ℕ)) :=
  match bd with
  | .U8 => some (resize_u8_image resample8 u8data, none)
  | .U16 =>
    match u16data with
    | none => none
    | some d => some ([], some (resize_u16_image resample16 d))

/-- Modelled from the spec (the claimed, not actual, 16-bit resize path):
"down-convert to 8-bit first, resample, then promote back by left-shifting
8 bits".  Used only to compare against the source's
`resize_u16_image`. -/
def specResizeU16ViaU8 (resample8 : List ℕ → List ℕ) (data : List ℕ) :
    List ℕ :=
  (resample8 (scale_u16_to_u8 data)).map fun v => v * 256

/-!
## Concrete instantiations of the transcendental parameters

Used by witnesses and counterexamples.  Each one agrees with the IEEE
function on every input at which the instantiated computation evaluates
it (noted at its use sites). -/

/-- Power function used on paths where the exponent is `1`:
IEEE `powf x 1 = x` exactly.  Also `powQid 0 γ = 0`, matching
IEEE `0^γ = 0` for `γ > 0`. -/
def powQid : ℚ → ℚ → ℚ := fun x _ => x

/-- Base-10 logarithm used on paths that only evaluate it at `1`:
IEEE `log10 1 = 0` exactly. -/
def log10One : ℚ → ℚ := fun _ => 0

/-!
## General helper lemmas
-/

/-- Monotonicity of `round`. -/
theorem round_mono {x y : ℚ} (h : x ≤ y) : round x ≤ round y := by
  rw [round_eq, round_eq]
  exact Int.floor_le_floor (by linarith)

/-- Rounding commutes with clamping at the integer bounds `0` and `m`. -/
theorem round_clampQ_comm (x : ℚ) (m : ℕ) :
    round (clampQ x 0 (m : ℚ)) = min (max (round x) 0) (m : ℤ) := by
  unfold clampQ
  rcases le_total x 0 with h0 | h0
  · have h1 : max x 0 = 0 := max_eq_right h0
    have h2 : round x ≤ 0 := by simpa using round_mono h0
    have h3 : min (0 : ℚ) (m : ℚ) = 0 := min_eq_left (by positivity)
    rw [h1, h3, round_zero]
    omega
  · have h1 : max x 0 = x := max_eq_left h0
    rw [h1]
    rcases le_total x (m : ℚ) with hm | hm
    · have h2 : min x (m : ℚ) = x := min_eq_left hm
      have h3 : (0 : ℤ) ≤ round x := by simpa using round_mono h0
      have h4 : round x ≤ (m : ℤ) := by simpa using round_mono hm
      rw [h2]
      omega
    · have h2 : min x (m : ℚ) = (m : ℚ) := min_eq_right hm
      have h4 : (m : ℤ) ≤ round x := by simpa using round_mono hm
      rw [h2, round_natCast]
      omega

/-- Flooring commutes with clamping at the integer bounds `0` and `m`. -/
theorem floor_clampQ_comm (x : ℚ) (m : ℕ) :
    ⌊clampQ x 0 (m : ℚ)⌋ = min (max ⌊x⌋ 0) (m : ℤ) := by
  unfold clampQ
  rcases le_total x 0 with h0 | h0
  · have h1 : max x 0 = 0 := max_eq_right h0
    have h2 : ⌊x⌋ ≤ 0 := by simpa using Int.floor_le_floor h0
    have h3 : min (0 : ℚ) (m : ℚ) = 0 := min_eq_left (by positivity)
    rw [h1, h3, Int.floor_zero]
    omega
  · have h1 : max x 0 = x := max_eq_left h0
    rw [h1]
    rcases le_total x (m : ℚ) with hm | hm
    · have h2 : min x (m : ℚ) = x := min_eq_left hm
      have h3 : (0 : ℤ) ≤ ⌊x⌋ := by simpa using Int.floor_le_floor h0
      have h4 : ⌊x⌋ ≤ (m : ℤ) := by simpa using Int.floor_le_floor hm
      rw [h2]
      omega
    · have h2 : min x (m : ℚ) = (m : ℚ) := min_eq_right hm
      have h4 : (m : ℤ) ≤ ⌊x⌋ := by simpa using Int.floor_le_floor hm
      rw [h2, Int.floor_natCast]
      omega

/-- Element access into a mapped zip, the shape of every per-pixel map in
the pipeline. -/
theorem map_zip_getElem {α β γ : Type} (f : α × β → γ) (a : List α)
    (b : List β) (i : ℕ) (ha : i < a.length) (hb : i < b.length) :
    ((a.zip b).map f)[i]? = some (f (a[i], b[i])) := by
  have hz : i < (a.zip b).length := by
    rw [List.length_zip]
    omega
  rw [List.getElem?_map, List.getElem?_eq_getElem hz]
  simp [List.getElem_zip]

/-!
## C7 — radiometric conversion
-/

/-- C7: `process_scalar_data_inplace` maps every sample `v` to
`db = 10·log10(max(v, 1e-10))`, sets the validity mask entry to `true`
exactly when `db > −50`, is monotone in the input when `log10` is, and is
total: for every input grid (including all-invalid ones) it returns a dB
grid and mask of the input's length. -/
theorem C7_radiometric_conversion (log10f : ℚ → ℚ) (hmono : Monotone log10f)
    (grid : List ℚ) :
    (process_scalar_data_inplace log10f grid).1 =
      grid.map (dbOfSample log10f) ∧
    (process_scalar_data_inplace log10f grid).2 =
      grid.map (fun v => decide ((-50 : ℚ) < dbOfSample log10f v)) ∧
    (process_scalar_data_inplace log10f grid).1.length = grid.length ∧
    (process_scalar_data_inplace log10f grid).2.length = grid.length ∧
    ∀ v w : ℚ, v ≤ w → dbOfSample log10f v ≤ dbOfSample log10f w := by
  refine ⟨?_, ?_, ?_, ?_, ?_⟩
  · simp [process_scalar_data_inplace, dbOfSample, List.map_map]
  · simp [process_scalar_data_inplace, dbOfSample, List.map_map]
  · simp [process_scalar_data_inplace]
  · simp [process_scalar_data_inplace]
  · intro v w hvw
    unfold dbOfSample
    have h1 : max v tinyMag ≤ max w tinyMag :=
      max_le_max hvw le_rfl
    have h2 : log10f (max v tinyMag) ≤ log10f (max w tinyMag) := hmono h1
    linarith

/-- Witness for C7 at `log10f = id`, grid `[1]`. -/
theorem C7_witness :
    (process_scalar_data_inplace id [(1 : ℚ)]).2 = [true] ∧
    dbOfSample id 0 ≤ dbOfSample id 1 :=
  ⟨by
    rw [(C7_radiometric_conversion id monotone_id [(1 : ℚ)]).2.1]
    with_unfolding_all decide,
   (C7_radiometric_conversion id monotone_id [(1 : ℚ)]).2.2.2.2 0 1
    (by norm_num)⟩

/-!
## C9 — ratio operation zero handling
-/

/-- C9: `ratio_arrays` returns `a / b` at every position where
`|b| > 1e-10` (equivalently `normSq b > (1e-10)²`) and exactly `0`
elsewhere; when `b` is zero everywhere the result is the all-zero grid
(in particular it is free of `NaN`/`Inf`: it consists of the literal
complex zero at every position). -/
theorem C9_ratio_zero_guard (a b : List CQ) (hlen : a.length = b.length) :
    (∀ (i : ℕ) (ha : i < a.length) (hb : i < b.length),
      (ratio_arrays a b)[i]? =
        some (if tinyMag ^ 2 < (b[i]).normSq then CQ.div a[i] b[i]
              else CQ.zero)) ∧
    ((∀ z ∈ b, z = CQ.zero) →
      ratio_arrays a b = List.replicate a.length CQ.zero) := by
  constructor
  · intro i ha hb
    unfold ratio_arrays
    have hz : i < (List.zipWith
        (fun x y => if tinyMag ^ 2 < y.normSq then CQ.div x y else CQ.zero)
        a b).length := by
      rw [List.length_zipWith]
      omega
    rw [List.getElem?_eq_getElem hz]
    simp [List.getElem_zipWith]
  · intro hb0
    unfold ratio_arrays
    induction a generalizing b with
    | nil => simp
    | cons x xs ih =>
      cases b with
      | nil => simp at hlen
      | cons y ys =>
        have hlen' : xs.length = ys.length := by
          simpa using hlen
        have hy : y = CQ.zero := hb0 y (by simp)
        have hys : ∀ z ∈ ys, z = CQ.zero := fun z hz => hb0 z (by simp [hz])
        have hcond : ¬ tinyMag ^ 2 < CQ.normSq CQ.zero := by
          simp [CQ.normSq, CQ.zero, tinyMag]
        simp only [List.zipWith_cons_cons, List.length_cons,
          List.replicate_succ, hy, if_neg hcond]
        exact congrArg _ (ih ys hlen' hys)

/-- Witness for C9 at `a = [1]`, `b = [0]`. -/
theorem C9_witness :
    ratio_arrays [⟨1, 0⟩] [CQ.zero] = [CQ.zero] :=
  (C9_ratio_zero_guard [⟨1, 0⟩] [CQ.zero] rfl).2
    (fun z hz => by simpa using hz)

/-!
## C3 — 16-bit resize path

The claim (and the spec) say the 16-bit resize path down-converts to
8 bits, resamples at 8 bits and promotes back by a left shift of 8.  The
source does the opposite: `resize_u16_image` feeds the original 16-bit
samples (losslessly encoded as little-endian bytes) to the resampler at
16-bit pixel type and decodes its 16-bit output; its log line reads
"Resizing U16 image without down-conversion".  The resampler itself is
the external `fast_image_resize` crate, abstracted as a function
parameter. -/

/-- A concrete stand-in for the external Lanczos3 resampler decimating a
constant 2×1 image to 1×1, acting on the 16-bit byte buffer: any
convolution resampler with unit weight sum maps a constant image to the
same constant, which taking the first pixel realises here. -/
def takeFirstPixel16 : List ℕ → List ℕ := fun l => l.take 2

/-- The same decimating resampler acting on an 8-bit buffer. -/
def takeFirstPixel8 : List ℕ → List ℕ := fun l => l.take 1

/-- Counterexample to C3 as stated: on the constant 16-bit image `[1, 1]`
(2×1, resized to 1×1) the source's native 16-bit path returns `[1]`,
while the claimed down-convert/resample/promote pipeline returns `[0]`;
moreover `[1]` is not a left-shift-by-8 of any 8-bit buffer (its sample
is not a multiple of 256). -/
theorem C3_counterexample :
    resize_u16_image takeFirstPixel16 [1, 1] = [1] ∧
    specResizeU16ViaU8 takeFirstPixel8 [1, 1] = [0] ∧
    ([1] : List ℕ).all (fun v => v % 256 = 0) = false := by
  refine ⟨?_, ?_, ?_⟩ <;> with_unfolding_all decide

/-- C3 (amended): for every resampler and every 16-bit buffer, the U16
branch of the resize dispatch resamples the 16-bit data natively — the
samples are losslessly encoded to little-endian bytes (`fromLeBytes ∘
toLeBytes` is the identity on 16-bit data), handed to the resampler at
16-bit pixel type, and its output decoded — with no down-conversion to
8 bits; a missing 16-bit buffer is the `MissingBand` error. -/
theorem C3_native_u16_resize (resample8 resample16 : List ℕ → List ℕ)
    (u8data : List ℕ) (data : List ℕ) (hdata : ∀ v ∈ data, v < 65536) :
    resizeBitDepthBranch resample8 resample16 u8data (some data) .U16 =
      some ([], some (fromLeBytes (resample16 (toLeBytes data)))) ∧
    fromLeBytes (toLeBytes data) = data ∧
    resizeBitDepthBranch resample8 resample16 u8data none .U16 = none := by
  refine ⟨rfl, ?_, rfl⟩
  induction data with
  | nil => rfl
  | cons v rest ih =>
    have hv : v < 65536 := hdata v (by simp)
    have hrest : ∀ x ∈ rest, x < 65536 := fun x hx => hdata x (by simp [hx])
    have hstep : toLeBytes (v :: rest) =
        v % 256 :: v / 256 % 256 :: toLeBytes rest := by
      simp [toLeBytes]
    rw [hstep, fromLeBytes]
    have hval : v % 256 + 256 * (v / 256 % 256) = v := by omega
    rw [hval, ih hrest]

/-- Witness for C3 (amended) at the identity byte resampler on `[3]`. -/
theorem C3_witness :
    resizeBitDepthBranch takeFirstPixel8 id [] (some [3]) .U16 =
      some ([], some [3]) := by
  have h := C3_native_u16_resize takeFirstPixel8 id [] [3]
    (by intro v hv; simp at hv; omega)
  rw [h.1]
  rw [show id (toLeBytes [3]) = toLeBytes [3] from rfl, h.2.1]

/-!
## Fold-based list minimum and maximum
-/

/-- A left fold of `min` is a lower bound of its start and its list. -/
theorem foldl_min_le {α : Type} [LinearOrder α] :
    ∀ (vs : List α) (v : α),
      vs.foldl min v ≤ v ∧ ∀ x ∈ vs, vs.foldl min v ≤ x := by
  intro vs
  induction vs with
  | nil => intro v; exact ⟨le_rfl, by simp⟩
  | cons w ws ih =>
    intro v
    have h := ih (min v w)
    refine ⟨?_, ?_⟩
    · exact le_trans h.1 (min_le_left _ _)
    · intro x hx
      rcases List.mem_cons.mp hx with h1 | h1
      · rw [h1]
        exact le_trans h.1 (min_le_right _ _)
      · exact h.2 x h1

/-- A left fold of `min` lands on its start or an element of its list. -/
theorem foldl_min_mem {α : Type} [LinearOrder α] :
    ∀ (vs : List α) (v : α), vs.foldl min v ∈ v :: vs := by
  intro vs
  induction vs with
  | nil => intro v; simp
  | cons w ws ih =>
    intro v
    have h := ih (min v w)
    simp only [List.foldl_cons, List.mem_cons] at h ⊢
    rcases h with h1 | h1
    · rcases min_choice v w with hm | hm
      · left; rw [h1, hm]
      · right; left; rw [h1, hm]
    · right; right; exact h1

/-- A left fold of `max` is an upper bound of its start and its list. -/
theorem le_foldl_max {α : Type} [LinearOrder α] :
    ∀ (vs : List α) (v : α),
      v ≤ vs.foldl max v ∧ ∀ x ∈ vs, x ≤ vs.foldl max v := by
  intro vs
  induction vs with
  | nil => intro v; exact ⟨le_rfl, by simp⟩
  | cons w ws ih =>
    intro v
    have h := ih (max v w)
    refine ⟨?_, ?_⟩
    · exact le_trans (le_max_left _ _) h.1
    · intro x hx
      rcases List.mem_cons.mp hx with h1 | h1
      · rw [h1]
        exact le_trans (le_max_right _ _) h.1
      · exact h.2 x h1

/-- A left fold of `max` lands on its start or an element of its list. -/
theorem foldl_max_mem {α : Type} [LinearOrder α] :
    ∀ (vs : List α) (v : α), vs.foldl max v ∈ v :: vs := by
  intro vs
  induction vs with
  | nil => intro v; simp
  | cons w ws ih =>
    intro v
    have h := ih (max v w)
    simp only [List.foldl_cons, List.mem_cons] at h ⊢
    rcases h with h1 | h1
    · rcases max_choice v w with hm | hm
      · left; rw [h1, hm]
      · right; left; rw [h1, hm]
    · right; right; exact h1

/-- The fold-based minimum of a non-empty `ℕ` list is attained. -/
theorem listMinNat_mem (v : ℕ) (vs : List ℕ) :
    listMinNat (v :: vs) ∈ v :: vs := foldl_min_mem vs v

/-- The fold-based minimum of a non-empty `ℕ` list is a lower bound. -/
theorem listMinNat_le (v : ℕ) (vs : List ℕ) (x : ℕ) (hx : x ∈ v :: vs) :
    listMinNat (v :: vs) ≤ x := by
  rcases List.mem_cons.mp hx with h1 | h1
  · rw [h1]
    exact (foldl_min_le vs v).1
  · exact (foldl_min_le vs v).2 x h1

/-- The fold-based maximum of a non-empty `ℕ` list is attained. -/
theorem listMaxNat_mem (v : ℕ) (vs : List ℕ) :
    listMaxNat (v :: vs) ∈ v :: vs := foldl_max_mem vs v

/-- The fold-based maximum of a non-empty `ℕ` list is an upper bound. -/
theorem le_listMaxNat (v : ℕ) (vs : List ℕ) (x : ℕ) (hx : x ∈ v :: vs) :
    x ≤ listMaxNat (v :: vs) := by
  rcases List.mem_cons.mp hx with h1 | h1
  · rw [h1]
    exact (le_foldl_max vs v).1
  · exact (le_foldl_max vs v).2 x h1

/-- An all-false mask yields no valid samples. -/
theorem validValues_eq_nil (db : List ℚ) (mask : List Bool)
    (hmask : ∀ x ∈ mask, x = false) : validValues db mask = [] := by
  unfold validValues
  rw [List.filterMap_eq_nil_iff]
  intro p hp
  have hsnd : p.2 ∈ mask := (List.of_mem_zip hp).2
  rw [hmask p.2 hsnd]
  rfl

/-- Unfolding of the restretch on a non-empty buffer. -/
theorem scale_u16_to_u8_cons (v : ℕ) (vs : List ℕ) :
    scale_u16_to_u8 (v :: vs) =
      (v :: vs).map (fun (x : ℕ) =>
        (min (max (round (((x : ℚ) - (listMinNat (v :: vs) : ℚ)) *
          (if listMinNat (v :: vs) < listMaxNat (v :: vs) then
            255 / ((listMaxNat (v :: vs) : ℚ) - (listMinNat (v :: vs) : ℚ))
          else 1))) 0) 255).toNat) := by
  simp only [scale_u16_to_u8, List.isEmpty_cons, Bool.false_eq_true,
    if_false]

/-- Restretching an all-zero buffer is the identity on it. -/
theorem scale_u16_to_u8_replicate_zero (n : ℕ) :
    scale_u16_to_u8 (List.replicate n 0) = List.replicate n 0 := by
  cases n with
  | zero => rfl
  | succ m =>
    have hfold : ∀ k : ℕ, (List.replicate k (0 : ℕ)).foldl min 0 = 0 := by
      intro k
      induction k with
      | zero => rfl
      | succ j ih => simpa [List.replicate_succ] using ih
    have hfoldmax : ∀ k : ℕ, (List.replicate k (0 : ℕ)).foldl max 0 = 0 := by
      intro k
      induction k with
      | zero => rfl
      | succ j ih => simpa [List.replicate_succ] using ih
    have hmn : listMinNat (List.replicate (m + 1) 0) = 0 := by
      rw [List.replicate_succ]
      exact hfold m
    have hmx : listMaxNat (List.replicate (m + 1) 0) = 0 := by
      rw [List.replicate_succ]
      exact hfoldmax m
    rw [List.replicate_succ, scale_u16_to_u8_cons,
      ← List.replicate_succ, hmn, hmx]
    rw [if_neg (lt_irrefl 0), List.map_replicate]
    norm_num

/-- An all-zero-stats grid makes `compute_histogram_stats` return the
all-zero snapshot. -/
theorem compute_histogram_stats_all_invalid (db : List ℚ)
    (mask : List Bool) (hmask : ∀ x ∈ mask, x = false) :
    compute_histogram_stats db mask = zeroStats := by
  have hv := validValues_eq_nil db mask hmask
  simp [compute_histogram_stats, hv]

/-!
## C10 — the 8-bit min–max restretch
-/

/-- C10: both autoscale wrappers post-process 8-bit output with
`scale_u16_to_u8`, which restretches via
`clamp(round((x − m)·255/(M − m)), 0, 255)` when `M > m` (so a
non-constant 8-bit output attains both `0` and `255`), and maps every
sample to `0` when `M = m`; an all-invalid grid gives an identically-zero
8-bit output. -/
theorem C10_u8_restretch :
    (∀ (powf : ℚ → ℚ → ℚ) (db : List ℚ) (mask : List Bool),
      autoscale_db_image_to_bitdepth powf db mask .U8 =
        (scale_u16_to_u8 (autoscale_db_image powf db mask .U8), none)) ∧
    (∀ (sqrtQ : ℚ → ℚ) (powf : ℚ → ℚ → ℚ)
        (claheFn : List ℚ → List Bool → List ℚ) (db : List ℚ)
        (mask : List Bool) (strategy : AutoscaleStrategy),
      autoscale_db_image_to_bitdepth_advanced sqrtQ powf claheFn db mask
          .U8 strategy =
        (scale_u16_to_u8 (autoscale_db_image_advanced sqrtQ powf claheFn
          db mask .U8 strategy), none)) ∧
    (∀ (v : ℕ) (vs : List ℕ),
      (listMinNat (v :: vs) < listMaxNat (v :: vs) →
        scale_u16_to_u8 (v :: vs) =
          (v :: vs).map (fun (x : ℕ) =>
            (min (max (round (((x : ℚ) - (listMinNat (v :: vs) : ℚ)) * 255 /
              ((listMaxNat (v :: vs) : ℚ) - (listMinNat (v :: vs) : ℚ))))
              0) 255).toNat) ∧
        0 ∈ scale_u16_to_u8 (v :: vs) ∧
        255 ∈ scale_u16_to_u8 (v :: vs)) ∧
      (listMinNat (v :: vs) = listMaxNat (v :: vs) →
        scale_u16_to_u8 (v :: vs) = List.replicate (v :: vs).length 0)) ∧
    (∀ (powf : ℚ → ℚ → ℚ) (db : List ℚ) (mask : List Bool),
      (∀ x ∈ mask, x = false) →
      (autoscale_db_image_to_bitdepth powf db mask .U8).1 =
        List.replicate db.length 0) := by
  refine ⟨fun _ _ _ => rfl, fun _ _ _ _ _ _ => rfl, ?_, ?_⟩
  · intro v vs
    set mn := listMinNat (v :: vs) with hmn
    set mx := listMaxNat (v :: vs) with hmx
    constructor
    · intro hlt
      have hmap : scale_u16_to_u8 (v :: vs) =
          (v :: vs).map (fun (x : ℕ) =>
            (min (max (round (((x : ℚ) - (mn : ℚ)) * 255 /
              ((mx : ℚ) - (mn : ℚ)))) 0) 255).toNat) := by
        rw [scale_u16_to_u8_cons]
        rw [if_pos hlt]
        apply List.map_congr_left
        intro x _
        rw [mul_div_assoc]
      refine ⟨hmap, ?_, ?_⟩
      · rw [hmap]
        refine List.mem_map.mpr ⟨mn, listMinNat_mem v vs, ?_⟩
        rw [sub_self, zero_mul, zero_div, round_zero]
        rfl
      · rw [hmap]
        refine List.mem_map.mpr ⟨mx, listMaxNat_mem v vs, ?_⟩
        have hne : (mx : ℚ) - (mn : ℚ) ≠ 0 := by
          have : (mn : ℚ) < (mx : ℚ) := by exact_mod_cast hlt
          linarith
        rw [mul_comm, mul_div_assoc, div_self hne, mul_one, round_ofNat]
        rfl
    · intro heq
      rw [scale_u16_to_u8_cons, ← hmn, ← hmx, heq,
        if_neg (lt_irrefl mx)]
      have hall : ∀ x ∈ v :: vs, x = mx := by
        intro x hx
        have h1 : mn ≤ x := listMinNat_le v vs x hx
        have h2 : x ≤ mx := le_listMaxNat v vs x hx
        omega
      rw [show ((v :: vs).length = (List.map (fun (x : ℕ) =>
        (min (max (round (((x : ℚ) - (mx : ℚ)) * 1)) 0) 255).toNat)
        (v :: vs)).length) by simp]
      apply List.eq_replicate_of_mem
      intro y hy
      obtain ⟨x, hx, hxy⟩ := List.mem_map.mp hy
      rw [hall x hx] at hxy
      rw [sub_self, zero_mul, round_zero] at hxy
      exact hxy.symm
  · intro powf db mask hmask
    have hstats := compute_histogram_stats_all_invalid db mask hmask
    have hauto : autoscale_db_image powf db mask .U8 =
        List.replicate db.length 0 := by
      unfold autoscale_db_image
      rw [hstats]
      rfl
    show scale_u16_to_u8 (autoscale_db_image powf db mask .U8) =
      List.replicate db.length 0
    rw [hauto, scale_u16_to_u8_replicate_zero]

/-- Witness for C10 on the buffer `[0, 510, 1]` (`round(0.5) = 1`,
matching Rust's half-away rounding on non-negative values). -/
theorem C10_witness :
    scale_u16_to_u8 [0, 510, 1] = [0, 255, 1] ∧
    (0 : ℕ) ∈ scale_u16_to_u8 [0, 510, 1] ∧
    (255 : ℕ) ∈ scale_u16_to_u8 [0, 510, 1] := by
  have h := ((C10_u8_restretch.2.2.1 0 [510, 1]).1
    (by with_unfolding_all decide))
  refine ⟨?_, h.2.1, h.2.2⟩
  rw [h.1]
  with_unfolding_all decide

/-!
## C1 — the Standard strategy's window rule
-/

/-- C1: on any grid with at least one valid pixel, the Standard strategy
(`autoscale_db_image`, whose window selection is `standardWindow` and
whose re-clamp is `clampWindow`) picks clip window and gamma by exactly
the claimed rule: range `< 15` → median-centred window of width
`max(20, 0.8·range)` with gamma `1.1`; else IQR `< 5` →
`[p25 − 2.5·IQR, p75 + 2.5·IQR]` with gamma `1.0`; else range `> 40` →
`[max(p02, min + 0.02·range), min(p98, max − 0.02·range)]` with gamma
`0.9`; else `[p02, p98]` with gamma `1.0`; and the chosen bounds are
re-clamped to `[min, max]` with the clipped range floored at `1`. -/
theorem C1_standard_strategy_rule (db : List ℚ) (mask : List Bool)
    (_hvalid : 1 ≤ (compute_histogram_stats db mask).valid_count) :
    ∀ s : HistogramStats, s = compute_histogram_stats db mask →
    ((s.max_db - s.min_db < 15 →
      standardWindow s =
        (s.median_db - max 20 (0.8 * (s.max_db - s.min_db)) / 2,
         s.median_db + max 20 (0.8 * (s.max_db - s.min_db)) / 2, 1.1)) ∧
     (¬ s.max_db - s.min_db < 15 → s.p75 - s.p25 < 5 →
      standardWindow s =
        (s.p25 - 2.5 * (s.p75 - s.p25), s.p75 + 2.5 * (s.p75 - s.p25),
         1)) ∧
     (¬ s.max_db - s.min_db < 15 → ¬ s.p75 - s.p25 < 5 →
      40 < s.max_db - s.min_db →
      standardWindow s =
        (max s.p02 (s.min_db + 0.02 * (s.max_db - s.min_db)),
         min s.p98 (s.max_db - 0.02 * (s.max_db - s.min_db)), 0.9)) ∧
     (¬ s.max_db - s.min_db < 15 → ¬ s.p75 - s.p25 < 5 →
      ¬ 40 < s.max_db - s.min_db →
      standardWindow s = (s.p02, s.p98, 1)) ∧
     (∀ lo hi : ℚ, clampWindow s lo hi =
        (max lo s.min_db, min hi s.max_db,
         max (min hi s.max_db - max lo s.min_db) 1))) := by
  intro s _
  refine ⟨?_, ?_, ?_, ?_, fun lo hi => rfl⟩
  · intro h1
    unfold standardWindow
    rw [if_pos h1, mul_comm (s.max_db - s.min_db) 0.8]
  · intro h1 h2
    unfold standardWindow
    rw [if_neg h1, if_pos h2]
  · intro h1 h2 h3
    unfold standardWindow
    rw [if_neg h1, if_neg h2, if_pos h3]
  · intro h1 h2 h3
    unfold standardWindow
    rw [if_neg h1, if_neg h2, if_neg h3]

/-- Witness for C1 on the one-pixel grid `[5]`: the degenerate snapshot
has range `0 < 15`, so the median window `[5 − 10, 5 + 10]` with gamma
`1.1` is chosen and re-clamped to the empty window `[5, 5]` of floored
width `1`. -/
theorem C1_witness :
    standardWindow (compute_histogram_stats [(5 : ℚ)] [true]) =
      (-5, 15, 1.1) ∧
    clampWindow (compute_histogram_stats [(5 : ℚ)] [true]) (-5) 15 =
      (5, 5, 1) := by
  have h := C1_standard_strategy_rule [(5 : ℚ)] [true]
    (by with_unfolding_all decide)
    (compute_histogram_stats [(5 : ℚ)] [true]) rfl
  constructor
  · rw [h.1 (by with_unfolding_all decide)]
    with_unfolding_all decide
  · rw [h.2.2.2.2 (-5) 15]
    with_unfolding_all decide

/-!
## C6 — the degenerate (all-equal) snapshot
-/

/-- Welford's update keeps `(mean, m2) = (c, 0)` over all-equal samples. -/
theorem welford_const_aux (c : ℚ) :
    ∀ (vals : List ℚ), (∀ v ∈ vals, v = c) →
    ∀ k : ℕ, 0 < k →
    vals.foldl welfordStep (k, c, 0) = (k + vals.length, c, 0) := by
  intro vals
  induction vals with
  | nil => intro _ k _; simp
  | cons v vs ih =>
    intro hall k hk
    have hv : v = c := hall v (by simp)
    have hstep : welfordStep (k, c, 0) v = (k + 1, c, 0) := by
      subst hv
      unfold welfordStep
      simp
    rw [List.foldl_cons, hstep,
      ih (fun x hx => hall x (by simp [hx])) (k + 1) (by omega)]
    simp
    omega

/-- The full Welford pass over a non-empty all-equal list: count is the
length, the mean is the common value, `m2 = 0`. -/
theorem welford_const (c : ℚ) (v : ℚ) (vs : List ℚ)
    (hall : ∀ x ∈ v :: vs, x = c) :
    welford (v :: vs) = ((v :: vs).length, c, 0) := by
  have hv : v = c := hall v (by simp)
  have hstep : welfordStep (0, 0, 0) v = (1, c, 0) := by
    subst hv
    unfold welfordStep
    norm_num
  unfold welford
  rw [List.foldl_cons, hstep,
    welford_const_aux c vs (fun x hx => hall x (by simp [hx])) 1
      (by omega)]
  simp
  omega

/-- A fold of `min` over all-equal values stays at the common value. -/
theorem foldl_min_const (c : ℚ) :
    ∀ (vs : List ℚ), (∀ x ∈ vs, x = c) → vs.foldl min c = c := by
  intro vs
  induction vs with
  | nil => intro _; rfl
  | cons w ws ih =>
    intro hall
    have hw : w = c := hall w (by simp)
    rw [List.foldl_cons, hw, min_self]
    exact ih (fun x hx => hall x (by simp [hx]))

/-- A fold of `max` over all-equal values stays at the common value. -/
theorem foldl_max_const (c : ℚ) :
    ∀ (vs : List ℚ), (∀ x ∈ vs, x = c) → vs.foldl max c = c := by
  intro vs
  induction vs with
  | nil => intro _; rfl
  | cons w ws ih =>
    intro hall
    have hw : w = c := hall w (by simp)
    rw [List.foldl_cons, hw, max_self]
    exact ih (fun x hx => hall x (by simp [hx]))

/-- Shared helper: an all-equal non-empty valid set short-circuits
`compute_histogram_stats` into the histogram-free `degenerateStats`
record. -/
theorem stats_const_eq_degenerate (db : List ℚ) (mask : List Bool)
    (c : ℚ) (hne : validValues db mask ≠ [])
    (hall : ∀ v ∈ validValues db mask, v = c) :
    compute_histogram_stats db mask =
      degenerateStats (validValues db mask).length c c c 0 := by
  obtain ⟨v, vs, hcons⟩ := List.exists_cons_of_ne_nil hne
  unfold compute_histogram_stats
  rw [hcons]
  rw [if_neg (by simp)]
  have hall' : ∀ x ∈ v :: vs, x = c := by
    rw [← hcons]; exact hall
  have hv : v = c := hall' v (by simp)
  have hmin : listMin (v :: vs) = c := by
    unfold listMin
    rw [hv]
    exact foldl_min_const c vs (fun x hx => hall' x (by simp [hx]))
  have hmax : listMax (v :: vs) = c := by
    unfold listMax
    rw [hv]
    exact foldl_max_const c vs (fun x hx => hall' x (by simp [hx]))
  have hwel : welford (v :: vs) = ((v :: vs).length, c, 0) :=
    welford_const c v vs hall'
  rw [hmin, hmax, hwel]
  rw [if_pos (by
    rw [sub_self, abs_zero]
    unfold f64Eps
    positivity)]
  simp

/-- C6: when the valid set is non-empty and all its values equal `c`
(so `max = min`), the snapshot is exactly the histogram-free
`degenerateStats` record: the median and the percentiles p01-p25 are the
common minimum `c`, the percentiles p75-p99 are the common maximum `c`,
and the histogram branch of `compute_histogram_stats` is not taken. -/
theorem C6_degenerate_snapshot (db : List ℚ) (mask : List Bool) (c : ℚ)
    (hne : validValues db mask ≠ [])
    (hall : ∀ v ∈ validValues db mask, v = c) :
    compute_histogram_stats db mask =
      degenerateStats (validValues db mask).length c c c 0 :=
  stats_const_eq_degenerate db mask c hne hall

/-- Witness for C6 on the grid `[5, 5]`, all valid. -/
theorem C6_witness :
    compute_histogram_stats [(5 : ℚ), 5] [true, true] =
      degenerateStats 2 5 5 5 0 := by
  have h := C6_degenerate_snapshot [(5 : ℚ), 5] [true, true] 5
    (by with_unfolding_all decide)
    (by with_unfolding_all decide)
  rw [h]
  rw [show (validValues [(5 : ℚ), 5] [true, true]).length = 2 by
    with_unfolding_all decide]

/-!
## C4 — constant-intensity grid
-/

/-- Zipping two equal-length replicated lists replicates the pair. -/
theorem zip_replicate_eq {α β : Type} (a : α) (b : β) :
    ∀ n : ℕ, (List.replicate n a).zip (List.replicate n b) =
      List.replicate n (a, b) := by
  intro n
  induction n with
  | zero => rfl
  | succ m ih => simp [List.replicate_succ, ih]

/-- Shared helper carrying the full constant-grid computation used by
claim C4's theorem and counterexample. -/
theorem constant_grid_black_aux (log10f : ℚ → ℚ) (powf : ℚ → ℚ → ℚ)
    (hlog : log10f 1 = 0) (hpow : powf 0 1.1 = 0) :
    (process_scalar_data_inplace log10f (List.replicate 64 1)).1 =
      List.replicate 64 0 ∧
    (process_scalar_data_inplace log10f (List.replicate 64 1)).2 =
      List.replicate 64 true ∧
    standardWindow
      (compute_histogram_stats (List.replicate 64 0)
        (List.replicate 64 true)) = (-10, 10, 1.1) ∧
    clampWindow
      (compute_histogram_stats (List.replicate 64 0)
        (List.replicate 64 true)) (-10) 10 = (0, 0, 1) ∧
    (autoscale_db_image_to_bitdepth powf (List.replicate 64 0)
      (List.replicate 64 true) .U8).1 = List.replicate 64 0 := by
  have hmag : max (1 : ℚ) tinyMag = 1 := by
    apply max_eq_left
    unfold tinyMag
    norm_num
  have hdb : (10 : ℚ) * log10f (max 1 tinyMag) = 0 := by
    rw [hmag, hlog, mul_zero]
  have hstats : compute_histogram_stats (List.replicate 64 0)
      (List.replicate 64 true) = degenerateStats 64 0 0 0 0 := by
    have h := stats_const_eq_degenerate (List.replicate 64 0)
      (List.replicate 64 true) 0
      (by with_unfolding_all decide) (by with_unfolding_all decide)
    rw [h]
    rw [show (validValues (List.replicate 64 (0 : ℚ))
      (List.replicate 64 true)).length = 64 by with_unfolding_all decide]
  refine ⟨?_, ?_, ?_, ?_, ?_⟩
  · unfold process_scalar_data_inplace
    simp only [List.map_map, List.map_replicate, Function.comp]
    rw [hdb]
  · unfold process_scalar_data_inplace
    simp only [List.map_map, List.map_replicate, Function.comp]
    rw [hdb]
    norm_num
  · rw [hstats]
    with_unfolding_all decide
  · rw [hstats]
    with_unfolding_all decide
  · show scale_u16_to_u8 (autoscale_db_image powf (List.replicate 64 0)
      (List.replicate 64 true) .U8) = List.replicate 64 0
    have hauto : autoscale_db_image powf (List.replicate 64 0)
        (List.replicate 64 true) .U8 = List.replicate 64 0 := by
      have hq : quantizePixel powf 0 0 1 1.1 (maxValOf .U8) 0 = 0 := by
        simp only [quantizePixel]
        rw [show (min (max (0 : ℚ) 0) 0 - 0) / 1 = 0 from by norm_num]
        rw [hpow]
        rw [show clampQ (0 * maxValOf .U8) 0 (maxValOf .U8) = 0 from by
          with_unfolding_all decide]
        simp
      unfold autoscale_db_image
      rw [hstats]
      rw [if_neg (by with_unfolding_all decide)]
      rw [zip_replicate_eq]
      simp only [show standardWindow (degenerateStats 64 0 0 0 0) =
          (-10, 10, 1.1) from by with_unfolding_all decide,
        show clampWindow (degenerateStats 64 0 0 0 0) (-10) 10 =
          (0, 0, 1) from by with_unfolding_all decide,
        List.map_replicate]
      simp [hq]
    rw [hauto, scale_u16_to_u8_replicate_zero]

/-- C4 (amended): on the 8×8 grid of constant intensity `1` (64 samples
row-major), the radiometric conversion yields dB `0` everywhere with
every pixel valid, the Standard strategy takes the low-contrast
(range `< 15`) median-window path with gamma `1.1`, but because the
median window `[−10, 10]` is re-clamped to `[min, max] = [0, 0]` (with
the clipped range floored at `1`), the quantized 8-bit output is
uniformly `0` (black) — not a mid-range value.  `hlog` and `hpow`
record the exact IEEE facts `log10 1 = 0` and `0^1.1 = 0`. -/
theorem C4_constant_grid_black (log10f : ℚ → ℚ) (powf : ℚ → ℚ → ℚ)
    (hlog : log10f 1 = 0) (hpow : powf 0 1.1 = 0) :
    (process_scalar_data_inplace log10f (List.replicate 64 1)).1 =
      List.replicate 64 0 ∧
    (process_scalar_data_inplace log10f (List.replicate 64 1)).2 =
      List.replicate 64 true ∧
    standardWindow
      (compute_histogram_stats (List.replicate 64 0)
        (List.replicate 64 true)) = (-10, 10, 1.1) ∧
    clampWindow
      (compute_histogram_stats (List.replicate 64 0)
        (List.replicate 64 true)) (-10) 10 = (0, 0, 1) ∧
    (autoscale_db_image_to_bitdepth powf (List.replicate 64 0)
      (List.replicate 64 true) .U8).1 = List.replicate 64 0 :=
  constant_grid_black_aux log10f powf hlog hpow

/-- Witness for C4 (amended) at `log10One` and `powQid` (both agreeing
with the IEEE functions at the only arguments exercised, `1` and
`(0, 1.1)`). -/
theorem C4_witness :
    (process_scalar_data_inplace log10One (List.replicate 64 1)).2 =
      List.replicate 64 true ∧
    (autoscale_db_image_to_bitdepth powQid (List.replicate 64 0)
      (List.replicate 64 true) .U8).1 = List.replicate 64 0 :=
  ⟨(C4_constant_grid_black log10One powQid rfl rfl).2.1,
   (C4_constant_grid_black log10One powQid rfl rfl).2.2.2.2⟩

/-- Counterexample to C4 as stated: on the constant grid the 8-bit
output at pixel 0 is exactly `0` — it is zero, not a mid-range byte
value. -/
theorem C4_counterexample :
    (process_scalar_data_inplace log10One (List.replicate 64 1)).1 =
      List.replicate 64 0 ∧
    (process_scalar_data_inplace log10One (List.replicate 64 1)).2 =
      List.replicate 64 true ∧
    ((autoscale_db_image_to_bitdepth powQid (List.replicate 64 0)
      (List.replicate 64 true) .U8).1)[0]? = some 0 := by
  have h := constant_grid_black_aux log10One powQid rfl rfl
  refine ⟨h.1, h.2.1, ?_⟩
  rw [h.2.2.2.2]
  with_unfolding_all decide

/-!
## C2 — per-pixel quantization formula
-/

/-- The final Standard-strategy parameters
`(low, high, range, gamma)` after window selection, re-clamping and range
flooring, exactly as `autoscale_db_image` computes them. -/
def standardFinal (s : HistogramStats) : ℚ × ℚ × ℚ × ℚ :=
  let w := standardWindow s
  let c := clampWindow s w.1 w.2.1
  (c.1, c.2.1, c.2.2, w.2.2)

/-- The final advanced-strategy parameters `(low, high, range, gamma)`
exactly as `autoscale_db_image_advanced` computes them. -/
def advancedFinal (sqrtQ : ℚ → ℚ) (s : HistogramStats)
    (strategy : AutoscaleStrategy) : ℚ × ℚ × ℚ × ℚ :=
  let p := advancedParams sqrtQ s strategy
  (p.1, p.2.1, max (p.2.1 - p.1) 1, p.2.2.1)

/-- The claim's per-pixel quantization formula, amended from `round` to
floor (the Rust `as u16` cast truncates):
`clamp(floor(((clamp(v,low,high) − low)/range)^gamma · max_value), 0,
max_value)`. -/
def specQuantFloor (powf : ℚ → ℚ → ℚ) (low high range gamma : ℚ)
    (maxv : ℕ) (v : ℚ) : ℕ :=
  (min (max ⌊powf ((clampQ v low high - low) / range) gamma *
    (maxv : ℚ)⌋ 0) (maxv : ℤ)).toNat

/-- Modelled from the spec: the claim's per-pixel quantization formula as
written, with `round`:
`clamp(round(((clamp(v,low,high) − low)/range)^gamma · max_value), 0,
max_value)`.  Used only to compare against the source's truncation. -/
def specQuantRound (powf : ℚ → ℚ → ℚ) (low high range gamma : ℚ)
    (maxv : ℕ) (v : ℚ) : ℕ :=
  (min (max (round (powf ((clampQ v low high - low) / range) gamma *
    (maxv : ℚ))) 0) (maxv : ℤ)).toNat

/-- The source's quantization of a valid pixel equals the claim's
clamped-floor formula. -/
theorem quantizePixel_eq_specFloor (powf : ℚ → ℚ → ℚ)
    (lo hi r g : ℚ) (bd : BitDepth) (v : ℚ) :
    quantizePixel powf lo hi r g (maxValOf bd) v =
      specQuantFloor powf lo hi r g (maxValN bd) v := by
  simp only [quantizePixel, specQuantFloor, maxValOf]
  rw [floor_clampQ_comm]
  rfl

/-- A valid pixel forces a non-empty valid set. -/
theorem validValues_ne_nil_of_valid (db : List ℚ) (mask : List Bool)
    (i : ℕ) (hi : i < db.length) (him : i < mask.length)
    (hmask : mask[i] = true) : validValues db mask ≠ [] := by
  have hz : i < (db.zip mask).length := by
    rw [List.length_zip]
    omega
  have hmem : (db[i], mask[i]) ∈ db.zip mask := by
    have := List.getElem_mem hz
    rwa [List.getElem_zip] at this
  apply List.ne_nil_of_mem (a := db[i])
  unfold validValues
  refine List.mem_filterMap.mpr ⟨(db[i], mask[i]), hmem, ?_⟩
  rw [hmask]
  rfl

/-- The snapshot's `valid_count` is the number of valid samples in every
branch of `compute_histogram_stats`. -/
theorem valid_count_eq (db : List ℚ) (mask : List Bool) :
    (compute_histogram_stats db mask).valid_count =
      (validValues db mask).length := by
  unfold compute_histogram_stats
  dsimp only
  split_ifs with h1 h2
  · simp [zeroStats, h1]
  · rfl
  · rfl

/-- For every non-CLAHE strategy the advanced autoscale body is the plain
quantization map over pixels (`use_local_enhancement` is false in every
arm, so the local-enhancement branch is dead). -/
theorem advanced_nonclahe_eq (sqrtQ : ℚ → ℚ) (powf : ℚ → ℚ → ℚ)
    (claheFn : List ℚ → List Bool → List ℚ) (db : List ℚ)
    (mask : List Bool) (bd : BitDepth) (strategy : AutoscaleStrategy)
    (hstrat : strategy ≠ .Clahe)
    (hc : ¬ (compute_histogram_stats db mask).valid_count = 0) :
    autoscale_db_image_advanced sqrtQ powf claheFn db mask bd strategy =
      (db.zip mask).map (fun p =>
        if p.2 then
          quantizePixel powf
            (advancedFinal sqrtQ (compute_histogram_stats db mask)
              strategy).1
            (advancedFinal sqrtQ (compute_histogram_stats db mask)
              strategy).2.1
            (advancedFinal sqrtQ (compute_histogram_stats db mask)
              strategy).2.2.1
            (advancedFinal sqrtQ (compute_histogram_stats db mask)
              strategy).2.2.2
            (maxValOf bd) p.1
        else 0) := by
  unfold autoscale_db_image_advanced advancedFinal
  rw [if_neg hc]
  cases strategy with
  | Clahe => exact absurd rfl hstrat
  | Standard => rfl
  | Robust => rfl
  | Adaptive => rfl
  | Equalized => rfl
  | Tamed => rfl
  | Default => rfl

/-- C2 (amended): in every non-CLAHE autoscale path — `autoscale_db_image`
(Standard) and `autoscale_db_image_advanced` at any strategy other than
CLAHE — every valid pixel quantizes to
`clamp(floor(((clamp(v,low,high) − low)/range)^gamma · max_value), 0,
max_value)` (the amendment: the Rust `as u16` cast truncates, it does not
round), where `max_value` is 255 at 8-bit and 65535 at 16-bit depth and
`(low, high, range, gamma)` are the strategy's final parameters; every
invalid pixel outputs exactly `0`. -/
theorem C2_quantization_truncates (powf : ℚ → ℚ → ℚ) (sqrtQ : ℚ → ℚ)
    (claheFn : List ℚ → List Bool → List ℚ) (db : List ℚ)
    (mask : List Bool) (bd : BitDepth) (strategy : AutoscaleStrategy)
    (hstrat : strategy ≠ .Clahe) (i : ℕ) (hi : i < db.length)
    (him : i < mask.length) :
    (mask[i] = true →
      (autoscale_db_image powf db mask bd)[i]? =
        some (specQuantFloor powf
          (standardFinal (compute_histogram_stats db mask)).1
          (standardFinal (compute_histogram_stats db mask)).2.1
          (standardFinal (compute_histogram_stats db mask)).2.2.1
          (standardFinal (compute_histogram_stats db mask)).2.2.2
          (maxValN bd) db[i]) ∧
      (autoscale_db_image_advanced sqrtQ powf claheFn db mask bd
          strategy)[i]? =
        some (specQuantFloor powf
          (advancedFinal sqrtQ (compute_histogram_stats db mask)
            strategy).1
          (advancedFinal sqrtQ (compute_histogram_stats db mask)
            strategy).2.1
          (advancedFinal sqrtQ (compute_histogram_stats db mask)
            strategy).2.2.1
          (advancedFinal sqrtQ (compute_histogram_stats db mask)
            strategy).2.2.2
          (maxValN bd) db[i])) ∧
    (mask[i] = false →
      (autoscale_db_image powf db mask bd)[i]? = some 0 ∧
      (autoscale_db_image_advanced sqrtQ powf claheFn db mask bd
        strategy)[i]? = some 0) := by
  constructor
  · intro hmask
    have hne := validValues_ne_nil_of_valid db mask i hi him hmask
    have hc : ¬ (compute_histogram_stats db mask).valid_count = 0 := by
      rw [valid_count_eq]
      simpa using hne
    constructor
    · unfold autoscale_db_image standardFinal
      rw [if_neg hc]
      rw [map_zip_getElem _ db mask i hi him]
      rw [hmask]
      rw [if_pos rfl]
      rw [quantizePixel_eq_specFloor]
    · rw [advanced_nonclahe_eq sqrtQ powf claheFn db mask bd strategy
        hstrat hc]
      rw [map_zip_getElem _ db mask i hi him]
      rw [hmask]
      rw [if_pos rfl]
      rw [quantizePixel_eq_specFloor]
  · intro hmask
    by_cases hc : (compute_histogram_stats db mask).valid_count = 0
    · constructor
      · unfold autoscale_db_image
        rw [if_pos hc]
        rw [List.getElem?_replicate]
        rw [if_pos hi]
      · unfold autoscale_db_image_advanced
        rw [if_pos hc]
        rw [List.getElem?_replicate]
        rw [if_pos hi]
    · constructor
      · unfold autoscale_db_image
        rw [if_neg hc]
        rw [map_zip_getElem _ db mask i hi him]
        rw [hmask]
        rfl
      · rw [advanced_nonclahe_eq sqrtQ powf claheFn db mask bd strategy
          hstrat hc]
        rw [map_zip_getElem _ db mask i hi him]
        rw [hmask]
        rfl

set_option maxRecDepth 40000 in
/-- Witness for C2 (amended) on the one-pixel grid `[5]`: the valid pixel
quantizes to the clamped-floor value, here `0`. -/
theorem C2_witness :
    (autoscale_db_image powQid [(5 : ℚ)] [true] BitDepth.U8)[0]? =
      some 0 := by
  have h := (C2_quantization_truncates powQid (fun q => q)
    (fun n _ => n) [(5 : ℚ)] [true] BitDepth.U8 .Standard
    (by intro hcl; cases hcl) 0 (by simp) (by simp)).1 rfl
  rw [h.1]
  with_unfolding_all decide

/-- The 101-sample grid refuting the claimed rounding: 100 zeros and one
`30` dB sample, all valid. -/
def dbC2 : List ℚ := List.replicate 100 0 ++ [30]

/-- The all-valid mask for `dbC2`. -/
def maskC2 : List Bool := List.replicate 101 true

set_option maxRecDepth 40000 in
/-- Counterexample to C2 as stated: on `dbC2` the Standard strategy picks
the heavy-tail window with gamma `1` and range floored to `1`; at the
bright pixel (index 100, value `30` dB) the source truncates to `3`
while the claim's rounding formula gives `4`.  On this path the gamma is
`1.0`, where IEEE `powf(x, 1) = x` exactly, so `powQid` is faithful. -/
theorem C2_counterexample :
    (autoscale_db_image powQid dbC2 maskC2 BitDepth.U8)[100]? =
      some 3 ∧
    specQuantRound powQid
      (standardFinal (compute_histogram_stats dbC2 maskC2)).1
      (standardFinal (compute_histogram_stats dbC2 maskC2)).2.1
      (standardFinal (compute_histogram_stats dbC2 maskC2)).2.2.1
      (standardFinal (compute_histogram_stats dbC2 maskC2)).2.2.2
      255 30 = 4 ∧
    (3 : ℕ) ≠ 4 := by
  refine ⟨?_, ?_, by omega⟩ <;> with_unfolding_all decide

/-!
## C5 — ordering of the percentile estimates

The CDF-inversion scan is monotone in its target rank and bounded by
`[min_db, max_db]`; the percentile chain follows.
-/

/-- The scan's result is at least `min_db + b·w`. -/
theorem percScan_ge (min_db w max_db : ℚ) (hw : 0 ≤ w) :
    ∀ (hist : List ℕ) (b cumsum target : ℕ),
    min_db + ((b + hist.length : ℕ) : ℚ) * w ≤ max_db →
    min_db + (b : ℚ) * w ≤ percScan min_db w max_db target hist b cumsum := by
  intro hist
  induction hist with
  | nil =>
    intro b cumsum target hbound
    simpa using hbound
  | cons h t ih =>
    intro b cumsum target hbound
    have hbound' : min_db + (((b + 1) + t.length : ℕ) : ℚ) * w ≤
        max_db := by
      have he : (b + 1) + t.length = b + (h :: t).length := by
        rw [List.length_cons]
        omega
      rw [he]
      exact hbound
    simp only [percScan]
    by_cases hfound : target < cumsum + h
    · rw [if_pos hfound]
      have hfrac : 0 ≤ (if 0 < h then ((target - cumsum : ℕ) : ℚ) / (h : ℚ)
          else 0) := by
        split_ifs with hh
        · positivity
        · exact le_refl 0
      linarith [mul_nonneg hfrac hw]
    · rw [if_neg hfound]
      have hstep := ih (b + 1) (cumsum + h) target hbound'
      have hcast : (((b + 1) : ℕ) : ℚ) = (b : ℚ) + 1 := by
        push_cast
        rfl
      rw [hcast] at hstep
      nlinarith

/-- The scan's result is at most `max_db` when it starts no beyond its
target (`cumsum ≤ target`) and the bins fit under `max_db`. -/
theorem percScan_le (min_db w max_db : ℚ) (hw : 0 ≤ w) :
    ∀ (hist : List ℕ) (b cumsum target : ℕ), cumsum ≤ target →
    min_db + ((b + hist.length : ℕ) : ℚ) * w ≤ max_db →
    percScan min_db w max_db target hist b cumsum ≤ max_db := by
  intro hist
  induction hist with
  | nil =>
    intro b cumsum target _ _
    exact le_refl _
  | cons h t ih =>
    intro b cumsum target hct hbound
    have hb1 : min_db + ((b : ℚ) + 1) * w ≤ max_db := by
      have he : (h :: t).length = t.length + 1 := List.length_cons h t
      rw [he] at hbound
      push_cast at hbound
      have hL : (0 : ℚ) ≤ (t.length : ℚ) := by positivity
      nlinarith
    simp only [percScan]
    by_cases hfound : target < cumsum + h
    · rw [if_pos hfound]
      have hh : 0 < h := by omega
      have hfrac : (if 0 < h then ((target - cumsum : ℕ) : ℚ) / (h : ℚ)
          else 0) ≤ 1 := by
        rw [if_pos hh]
        rw [div_le_one (by exact_mod_cast hh)]
        exact_mod_cast (by omega : (target - cumsum : ℕ) ≤ h)
      have hfw := mul_le_mul_of_nonneg_right hfrac hw
      linarith
    · rw [if_neg hfound]
      have hbound' : min_db + (((b + 1) + t.length : ℕ) : ℚ) * w ≤
          max_db := by
        have he : (b + 1) + t.length = b + (h :: t).length := by
          rw [List.length_cons]
          omega
        rw [he]
        exact hbound
      exact ih (b + 1) (cumsum + h) target (by omega) hbound'

/-- The scan is monotone in the target rank. -/
theorem percScan_mono (min_db w max_db : ℚ) (hw : 0 ≤ w) :
    ∀ (hist : List ℕ) (b cumsum t1 t2 : ℕ), cumsum ≤ t1 → t1 ≤ t2 →
    min_db + ((b + hist.length : ℕ) : ℚ) * w ≤ max_db →
    percScan min_db w max_db t1 hist b cumsum ≤
      percScan min_db w max_db t2 hist b cumsum := by
  intro hist
  induction hist with
  | nil =>
    intro b cumsum t1 t2 _ _ _
    exact le_refl _
  | cons h t ih =>
    intro b cumsum t1 t2 hc1 h12 hbound
    have hbound' : min_db + (((b + 1) + t.length : ℕ) : ℚ) * w ≤
        max_db := by
      have he : (b + 1) + t.length = b + (h :: t).length := by
        rw [List.length_cons]
        omega
      rw [he]
      exact hbound
    simp only [percScan]
    by_cases h1 : t1 < cumsum + h
    · by_cases h2 : t2 < cumsum + h
      · rw [if_pos h1, if_pos h2]
        have hh : 0 < h := by omega
        have hfracs : (if 0 < h then ((t1 - cumsum : ℕ) : ℚ) / (h : ℚ)
            else 0) ≤ (if 0 < h then ((t2 - cumsum : ℕ) : ℚ) / (h : ℚ)
            else 0) := by
          rw [if_pos hh, if_pos hh]
          have hhq : (0 : ℚ) < (h : ℚ) := by exact_mod_cast hh
          rw [div_le_div_iff_of_pos_right hhq]
          exact_mod_cast Nat.sub_le_sub_right h12 cumsum
        have hfw := mul_le_mul_of_nonneg_right hfracs hw
        linarith
      · rw [if_pos h1, if_neg h2]
        have hh : 0 < h := by omega
        have hfrac : (if 0 < h then ((t1 - cumsum : ℕ) : ℚ) / (h : ℚ)
            else 0) ≤ 1 := by
          rw [if_pos hh]
          rw [div_le_one (by exact_mod_cast hh)]
          exact_mod_cast (by omega : (t1 - cumsum : ℕ) ≤ h)
        have hge := percScan_ge min_db w max_db hw t (b + 1) (cumsum + h)
          t2 hbound'
        have hcast : (((b + 1) : ℕ) : ℚ) = (b : ℚ) + 1 := by
          push_cast
          rfl
        rw [hcast] at hge
        have hfw := mul_le_mul_of_nonneg_right hfrac hw
        linarith
    · have h2 : ¬ t2 < cumsum + h := by omega
      rw [if_neg h1, if_neg h2]
      exact ih (b + 1) (cumsum + h) t1 t2 (by omega) h12 hbound'

/-- The histogram always has `numBins` bins. -/
theorem buildHist_length (vals : List ℚ) (min_db span : ℚ) :
    (buildHist vals min_db span).length = numBins := by
  unfold buildHist
  have haux : ∀ (l : List ℚ) (init : List ℕ),
      (l.foldl (fun h v =>
        let idx := binIdxOf min_db span v
        h.set idx (h.getD idx 0 + 1)) init).length = init.length := by
    intro l
    induction l with
    | nil => intro init; rfl
    | cons x xs ih =>
      intro init
      rw [List.foldl_cons, ih]
      exact List.length_set ..
  rw [haux]
  exact List.length_replicate ..

/-- The common bound hypothesis of the scan lemmas, discharged for the
histogram's actual geometry: 4096 bins of width `span / 4096` starting at
`min_db` end exactly at `min_db + span`. -/
theorem histBound (min_db span : ℚ) (hist : List ℕ)
    (hlen : hist.length = numBins) :
    min_db + ((0 + hist.length : ℕ) : ℚ) * (span / (numBins : ℚ)) ≤
      min_db + span := by
  rw [hlen]
  have h4096 : ((numBins : ℕ) : ℚ) = 4096 := by
    unfold numBins
    norm_num
  rw [show ((0 + numBins : ℕ) : ℚ) = ((numBins : ℕ) : ℚ) by norm_num]
  rw [h4096]
  rw [show (4096 : ℚ) * (span / 4096) = span by ring]

/-- The percentile estimate is monotone in the requested percentile. -/
theorem estimatePercentile_mono (hist : List ℕ) (n : ℕ)
    (min_db max_db span : ℚ) (hlen : hist.length = numBins)
    (hspan : 0 ≤ span) (hmax : min_db + span = max_db) (p q : ℚ)
    (_hp : 0 ≤ p) (hpq : p ≤ q) :
    estimatePercentile hist n min_db max_db span p ≤
      estimatePercentile hist n min_db max_db span q := by
  unfold estimatePercentile
  have hw : 0 ≤ span / (numBins : ℚ) := by positivity
  have ht0 : Nat.floor (p * (n : ℚ)) ≤ Nat.floor (q * (n : ℚ)) := by
    apply Nat.floor_le_floor
    have hn : (0 : ℚ) ≤ (n : ℚ) := by positivity
    nlinarith
  apply percScan_mono min_db (span / (numBins : ℚ)) max_db hw hist 0 0
  · exact Nat.zero_le _
  · set a := Nat.floor (p * (n : ℚ))
    set b := Nat.floor (q * (n : ℚ))
    by_cases ha : n ≤ a <;> by_cases hb : n ≤ b <;>
      simp [ha, hb] <;> omega
  · rw [← hmax]
    exact histBound min_db span hist hlen

/-- The percentile estimate is at least `min_db`. -/
theorem estimatePercentile_ge (hist : List ℕ) (n : ℕ)
    (min_db max_db span : ℚ) (hlen : hist.length = numBins)
    (hspan : 0 ≤ span) (hmax : min_db + span = max_db) (p : ℚ) :
    min_db ≤ estimatePercentile hist n min_db max_db span p := by
  unfold estimatePercentile
  have hw : 0 ≤ span / (numBins : ℚ) := by positivity
  have h := percScan_ge min_db (span / (numBins : ℚ)) max_db hw hist 0 0
    (let t0 := Nat.floor (p * (n : ℚ)); if n ≤ t0 then n - 1 else t0)
    (by rw [← hmax]; exact histBound min_db span hist hlen)
  simpa using h

/-- The percentile estimate is at most `max_db`. -/
theorem estimatePercentile_le (hist : List ℕ) (n : ℕ)
    (min_db max_db span : ℚ) (hlen : hist.length = numBins)
    (hspan : 0 ≤ span) (hmax : min_db + span = max_db) (p : ℚ) :
    estimatePercentile hist n min_db max_db span p ≤ max_db := by
  unfold estimatePercentile
  have hw : 0 ≤ span / (numBins : ℚ) := by positivity
  exact percScan_le min_db (span / (numBins : ℚ)) max_db hw hist 0 0 _
    (Nat.zero_le _) (by rw [← hmax]; exact histBound min_db span hist hlen)

/-- The minimum of a non-empty list bounds its maximum. -/
theorem listMin_le_listMax (v : ℚ) (vs : List ℚ) :
    listMin (v :: vs) ≤ listMax (v :: vs) := by
  unfold listMin listMax
  calc vs.foldl min v ≤ v := (foldl_min_le vs v).1
    _ ≤ vs.foldl max v := (le_foldl_max vs v).1

/-- C5: for every grid with a non-empty valid set the percentile
estimates of `compute_histogram_stats` are ordered:
`min ≤ p01 ≤ p02 ≤ p05 ≤ p10 ≤ p25 ≤ median ≤ p75 ≤ p90 ≤ p95 ≤ p98 ≤
p99 ≤ max`.  The chain holds exactly, hence in particular within the one
histogram-bin width `(max − min)/4096` the claim allows. -/
theorem C5_percentile_ordering (db : List ℚ) (mask : List Bool)
    (hne : validValues db mask ≠ []) :
    ∀ s : HistogramStats, s = compute_histogram_stats db mask →
      s.min_db ≤ s.p01 ∧ s.p01 ≤ s.p02 ∧ s.p02 ≤ s.p05 ∧
      s.p05 ≤ s.p10 ∧ s.p10 ≤ s.p25 ∧ s.p25 ≤ s.median_db ∧
      s.median_db ≤ s.p75 ∧ s.p75 ≤ s.p90 ∧ s.p90 ≤ s.p95 ∧
      s.p95 ≤ s.p98 ∧ s.p98 ≤ s.p99 ∧ s.p99 ≤ s.max_db := by
  intro s hs
  obtain ⟨v, vs, hcons⟩ := List.exists_cons_of_ne_nil hne
  have hminmax : listMin (v :: vs) ≤ listMax (v :: vs) :=
    listMin_le_listMax v vs
  unfold compute_histogram_stats at hs
  rw [hcons] at hs
  dsimp only at hs
  rw [if_neg (by simp)] at hs
  split_ifs at hs with hdeg
  · subst hs
    unfold degenerateStats
    refine ⟨le_refl _, le_refl _, le_refl _, le_refl _, le_refl _,
      le_refl _, hminmax, le_refl _, le_refl _, le_refl _, le_refl _,
      le_refl _⟩
  · subst hs
    set vals := v :: vs
    set mn := listMin vals
    set mx := listMax vals
    set span := mx - mn
    set hist := buildHist vals mn span
    set n := vals.length
    have hlen : hist.length = numBins := buildHist_length vals mn span
    have hspan : 0 ≤ span := by
      simp only [span]
      linarith
    have hmaxeq : mn + span = mx := by
      simp only [span]
      ring
    have hmono := fun (p q : ℚ) (hp : 0 ≤ p) (hpq : p ≤ q) =>
      estimatePercentile_mono hist n mn mx span hlen hspan hmaxeq p q hp
        hpq
    refine ⟨?_, ?_, ?_, ?_, ?_, ?_, ?_, ?_, ?_, ?_, ?_, ?_⟩
    · exact estimatePercentile_ge hist n mn mx span hlen hspan hmaxeq _
    · exact hmono (1/100) (2/100) (by norm_num) (by norm_num)
    · exact hmono (2/100) (5/100) (by norm_num) (by norm_num)
    · exact hmono (5/100) (1/10) (by norm_num) (by norm_num)
    · exact hmono (1/10) (1/4) (by norm_num) (by norm_num)
    · exact hmono (1/4) (1/2) (by norm_num) (by norm_num)
    · exact hmono (1/2) (3/4) (by norm_num) (by norm_num)
    · exact hmono (3/4) (9/10) (by norm_num) (by norm_num)
    · exact hmono (9/10) (95/100) (by norm_num) (by norm_num)
    · exact hmono (95/100) (98/100) (by norm_num) (by norm_num)
    · exact hmono (98/100) (99/100) (by norm_num) (by norm_num)
    · exact estimatePercentile_le hist n mn mx span hlen hspan hmaxeq _

/-- Witness for C5 on the grid `[5, 5]`, all valid: the first and last
links of the chain at a concrete snapshot. -/
theorem C5_witness :
    (compute_histogram_stats [(5 : ℚ), 5] [true, true]).min_db ≤
      (compute_histogram_stats [(5 : ℚ), 5] [true, true]).p01 ∧
    (compute_histogram_stats [(5 : ℚ), 5] [true, true]).p99 ≤
      (compute_histogram_stats [(5 : ℚ), 5] [true, true]).max_db := by
  have h := C5_percentile_ordering [(5 : ℚ), 5] [true, true]
    (by with_unfolding_all decide)
    (compute_histogram_stats [(5 : ℚ), 5] [true, true]) rfl
  exact ⟨h.1, h.2.2.2.2.2.2.2.2.2.2.2⟩

/-!
## C8 — the synthetic RGB compositor
-/

/-- Unfolding of the compositor on a leading pixel. -/
theorem create_synthetic_rgb_cons (powf : ℚ → ℚ → ℚ) (x y : ℕ)
    (xs ys : List ℕ) :
    create_synthetic_rgb powf (x :: xs) (y :: ys) =
      lutR powf x :: lutG powf y :: lutB powf x y ::
        create_synthetic_rgb powf xs ys := by
  simp [create_synthetic_rgb]

/-- Per-pixel characterization of the interleaved output. -/
theorem create_synthetic_rgb_getElem (powf : ℚ → ℚ → ℚ) :
    ∀ (b1 b2 : List ℕ) (i : ℕ) (hb1 : i < b1.length)
      (hb2 : i < b2.length),
      (create_synthetic_rgb powf b1 b2)[3 * i]? =
        some (lutR powf b1[i]) ∧
      (create_synthetic_rgb powf b1 b2)[3 * i + 1]? =
        some (lutG powf b2[i]) ∧
      (create_synthetic_rgb powf b1 b2)[3 * i + 2]? =
        some (lutB powf b1[i] b2[i]) := by
  intro b1
  induction b1 with
  | nil =>
    intro b2 i hi
    simp at hi
  | cons x xs ih =>
    intro b2 i h1 h2
    cases b2 with
    | nil => simp at h2
    | cons y ys =>
      rw [create_synthetic_rgb_cons]
      cases i with
      | zero => simp
      | succ j =>
        have hj1 : j < xs.length := by
          simpa using h1
        have hj2 : j < ys.length := by
          simpa using h2
        have e1 : 3 * (j + 1) = 3 * j + 1 + 1 + 1 := by ring
        have e2 : 3 * (j + 1) + 1 = 3 * j + 1 + 1 + 1 + 1 := by ring
        have e3 : 3 * (j + 1) + 2 = 3 * j + 2 + 1 + 1 + 1 := by ring
        have hrec := ih ys j hj1 hj2
        refine ⟨?_, ?_, ?_⟩
        · rw [e1]
          simp only [List.getElem?_cons_succ, List.getElem_cons_succ]
          exact hrec.1
        · rw [e2]
          simp only [List.getElem?_cons_succ, List.getElem_cons_succ]
          exact hrec.2.1
        · rw [e3]
          simp only [List.getElem?_cons_succ, List.getElem_cons_succ]
          exact hrec.2.2

/-- C8: in the default compositor, for equal-length 8-bit bands the red
output at pixel `i` depends only on `band1` through the gamma-0.7 table
`lutR`, the green output only on `band2` through the gamma-0.9 table
`lutG`; the blue output is exactly `0` whenever the raw `band2` byte is
`0`, and otherwise equals
`clamp(round((lutR[b1] / lutG[b2])^0.1 · 255 · 0.24), 0, 255)`. -/
theorem C8_synthetic_rgb (powf : ℚ → ℚ → ℚ) (b1 b2 : List ℕ)
    (_hlen : b1.length = b2.length) (i : ℕ) (h1 : i < b1.length)
    (h2 : i < b2.length) :
    (create_synthetic_rgb powf b1 b2)[3 * i]? =
      some (lutR powf b1[i]) ∧
    (create_synthetic_rgb powf b1 b2)[3 * i + 1]? =
      some (lutG powf b2[i]) ∧
    (create_synthetic_rgb powf b1 b2)[3 * i + 2]? =
      some (lutB powf b1[i] b2[i]) ∧
    (b2[i] = 0 → lutB powf b1[i] b2[i] = 0) ∧
    (b2[i] ≠ 0 → lutB powf b1[i] b2[i] =
      (min (max (round (powf
        ((lutR powf b1[i] : ℚ) / (lutG powf b2[i] : ℚ)) 0.1 * 255 * 0.24))
        0) 255).toNat) := by
  have hidx := create_synthetic_rgb_getElem powf b1 b2 i h1 h2
  refine ⟨hidx.1, hidx.2.1, hidx.2.2, ?_, ?_⟩
  · intro h0
    unfold lutB
    rw [if_pos h0]
  · intro h0
    unfold lutB
    rw [if_neg h0]
    dsimp only
    rw [show (255 : ℚ) = ((255 : ℕ) : ℚ) from by norm_num]
    rw [round_clampQ_comm]
    norm_num

/-- Witness for C8 at `powQid` on the one-pixel bands `[255]`, `[0]`:
red is `255`, blue is exactly `0`. -/
theorem C8_witness :
    (create_synthetic_rgb powQid [255] [0])[0]? = some 255 ∧
    (create_synthetic_rgb powQid [255] [0])[2]? = some 0 := by
  have h := C8_synthetic_rgb powQid [255] [0] rfl 0 (by simp) (by simp)
  constructor
  · have h1 := h.1
    norm_num at h1
    rw [h1]
    rw [show lutR powQid 255 = 255 from by with_unfolding_all decide]
  · have h3 := h.2.2.1
    norm_num at h3
    rw [h3]
    rw [show lutB powQid 255 0 = 0 from by with_unfolding_all decide]

end Sarpro
